import Mathlib

set_option maxRecDepth 40000
set_option maxHeartbeats 1000000

/-!
Verification of the `mangle` sanitization library.

Shallow embedding of `mangle.go` (package `mangle`): the corpus builder
`BuildCorpus`, the word mapper `mangleWord`, the segmenters `MangleString` /
`MangleIO`, and the HTML driver `MangleHTML` / `mangleHTMLParser`.

Go strings are modelled as lists of Unicode code points; byte-level
operations (SHA-256, CRC-32, UTF-8 sizing) work on lists of byte values.
The `float64` arithmetic in `mangleWord`'s index computation is modelled
exactly (binary64 round-to-nearest-even on positive normal values).
Panics (out-of-range array or slice indexing) are modelled by `Option`:
`none` means the Go code panics.

All definitions are fuel- or structurally-recursive so that the kernel can
evaluate them on concrete inputs.
-/

namespace Mangle

/-- Go strings viewed as sequences of runes (Unicode code points). -/
abbrev Str := List Char

/-! ### Bit-level helpers -/

/-- Bitwise XOR of the `f` low bits of two naturals. -/
def xorAux : ℕ → ℕ → ℕ → ℕ
  | 0, _, _ => 0
  | f + 1, a, b => (if a % 2 = b % 2 then 0 else 1) + 2 * xorAux f (a / 2) (b / 2)

/-- Bitwise AND of the `f` low bits of two naturals. -/
def andAux : ℕ → ℕ → ℕ → ℕ
  | 0, _, _ => 0
  | f + 1, a, b => (if a % 2 = 1 ∧ b % 2 = 1 then 1 else 0) + 2 * andAux f (a / 2) (b / 2)

/-- 32-bit exclusive or. -/
def xor32 (a b : ℕ) : ℕ := xorAux 32 a b

/-- 32-bit and. -/
def and32 (a b : ℕ) : ℕ := andAux 32 a b

/-- 32-bit complement. -/
def not32 (a : ℕ) : ℕ := 2 ^ 32 - 1 - a % 2 ^ 32

/-- 32-bit modular addition. -/
def add32 (a b : ℕ) : ℕ := (a + b) % 2 ^ 32

/-- Right rotation of a 32-bit value by `k` bits. -/
def rotr32 (x k : ℕ) : ℕ := x % 2 ^ 32 / 2 ^ k + x % 2 ^ k * 2 ^ (32 - k)

/-! ### SHA-256 (`crypto/sha256`), over lists of byte values -/

/-- SHA-256 round constants. -/
def shaK : List ℕ :=
  [1116352408, 1899447441, 3049323471, 3921009573, 961987163, 1508970993,
   2453635748, 2870763221, 3624381080, 310598401, 607225278, 1426881987,
   1925078388, 2162078206, 2614888103, 3248222580, 3835390401, 4022224774,
   264347078, 604807628, 770255983, 1249150122, 1555081692, 1996064986,
   2554220882, 2821834349, 2952996808, 3210313671, 3336571891, 3584528711,
   113926993, 338241895, 666307205, 773529912, 1294757372, 1396182291,
   1695183700, 1986661051, 2177026350, 2456956037, 2730485921, 2820302411,
   3259730800, 3345764771, 3516065817, 3600352804, 4094571909, 275423344,
   430227734, 506948616, 659060556, 883997877, 958139571, 1322822218,
   1537002063, 1747873779, 1955562222, 2024104815, 2227730452, 2361852424,
   2428436474, 2756734187, 3204031479, 3329325298]

/-- SHA-256 initial hash value. -/
def shaH0 : List ℕ :=
  [1779033703, 3144134277, 1013904242, 2773480762,
   1359893119, 2600822924, 528734635, 1541459225]

def bsig0 (x : ℕ) : ℕ := xor32 (xor32 (rotr32 x 2) (rotr32 x 13)) (rotr32 x 22)

def bsig1 (x : ℕ) : ℕ := xor32 (xor32 (rotr32 x 6) (rotr32 x 11)) (rotr32 x 25)

def ssig0 (x : ℕ) : ℕ := xor32 (xor32 (rotr32 x 7) (rotr32 x 18)) (x % 2 ^ 32 / 2 ^ 3)

def ssig1 (x : ℕ) : ℕ := xor32 (xor32 (rotr32 x 17) (rotr32 x 19)) (x % 2 ^ 32 / 2 ^ 10)

def chF (e f g : ℕ) : ℕ := xor32 (and32 e f) (and32 (not32 e) g)

def majF (a b c : ℕ) : ℕ := xor32 (xor32 (and32 a b) (and32 a c)) (and32 b c)

/-- Append `f` further words of the SHA-256 message schedule. -/
def extendW : ℕ → List ℕ → List ℕ
  | 0, w => w
  | f + 1, w =>
      let n := w.length
      let wi := add32 (add32 (w.getD (n - 16) 0) (ssig0 (w.getD (n - 15) 0)))
                      (add32 (w.getD (n - 7) 0) (ssig1 (w.getD (n - 2) 0)))
      extendW f (w ++ [wi])

/-- One SHA-256 compression round; the state is the 8-word list `[a,…,h]`,
`kw` is the precombined `K[i] + W[i]`. -/
def compressStep (st : List ℕ) (kw : ℕ) : List ℕ :=
  match st with
  | [a, b, c, d, e, f, g, h] =>
      let t1 := add32 (add32 h (bsig1 e)) (add32 (chF e f g) kw)
      let t2 := add32 (bsig0 a) (majF a b c)
      [add32 t1 t2, a, b, c, add32 d t1, e, f, g]
  | other => other

/-- Compress one 16-word block into the running hash. -/
def compressBlock (h : List ℕ) (block : List ℕ) : List ℕ :=
  let w := extendW 48 block
  let st := (List.zipWith add32 shaK w).foldl compressStep h
  List.zipWith add32 h st

/-- Big-endian 4-byte groups to 32-bit words. -/
def toWords : List ℕ → List ℕ
  | b0 :: b1 :: b2 :: b3 :: rest => (((b0 * 256 + b1) * 256 + b2) * 256 + b3) :: toWords rest
  | _ => []

/-- Split into 64-byte chunks (`f` is fuel). -/
def chunks64 : ℕ → List ℕ → List (List ℕ)
  | 0, _ => []
  | _ + 1, [] => []
  | f + 1, bytes => bytes.take 64 :: chunks64 f (bytes.drop 64)

/-- 8-byte big-endian encoding. -/
def be8 (n : ℕ) : List ℕ :=
  [n / 2 ^ 56 % 256, n / 2 ^ 48 % 256, n / 2 ^ 40 % 256, n / 2 ^ 32 % 256,
   n / 2 ^ 24 % 256, n / 2 ^ 16 % 256, n / 2 ^ 8 % 256, n % 256]

/-- SHA-256 padding: `0x80`, zeros to 56 mod 64, 8-byte bit length. -/
def shaPad (msg : List ℕ) : List ℕ :=
  let len := msg.length
  let zeros := (64 + 56 - (len + 1) % 64) % 64
  msg ++ 0x80 :: List.replicate zeros 0 ++ be8 (8 * len)

/-- SHA-256 digest (32 bytes) of a byte list. -/
def sha256 (msg : List ℕ) : List ℕ :=
  let blocks := chunks64 (msg.length + 73) (shaPad msg)
  let hh := blocks.foldl (fun h b => compressBlock h (toWords b)) shaH0
  hh.foldr (fun w acc => w / 2 ^ 24 % 256 :: w / 2 ^ 16 % 256 :: w / 2 ^ 8 % 256 :: w % 256 :: acc) []

/-! ### CRC-32 (IEEE, reflected — `hash/crc32.ChecksumIEEE`) -/

/-- One bit of the reflected CRC-32 division. -/
def crcStep (c : ℕ) : ℕ := if c % 2 = 1 then xor32 (c / 2) 0xEDB88320 else c / 2

/-- Fold one byte into the CRC state. -/
def crcByte (c b : ℕ) : ℕ :=
  crcStep (crcStep (crcStep (crcStep (crcStep (crcStep (crcStep (crcStep (xor32 c b))))))))

/-- CRC-32 (IEEE polynomial) of a byte list. -/
def crc32 (bytes : List ℕ) : ℕ := xor32 (bytes.foldl crcByte 0xFFFFFFFF) 0xFFFFFFFF

/-! ### UTF-8 encoding of runes (Go `[]byte(string)`) -/

/-- UTF-8 bytes of one rune. -/
def utf8Char (c : Char) : List ℕ :=
  let v := c.toNat
  if v < 0x80 then [v]
  else if v < 0x800 then [0xC0 + v / 0x40, 0x80 + v % 0x40]
  else if v < 0x10000 then [0xE0 + v / 0x1000, 0x80 + v / 0x40 % 0x40, 0x80 + v % 0x40]
  else [0xF0 + v / 0x40000, 0x80 + v / 0x1000 % 0x40, 0x80 + v / 0x40 % 0x40, 0x80 + v % 0x40]

/-- UTF-8 byte sequence of a string. -/
def utf8 (s : Str) : List ℕ := s.foldr (fun c acc => utf8Char c ++ acc) []

/-- Go `len` of a string: its UTF-8 byte count. -/
def byteLen (s : Str) : ℕ := (utf8 s).length

/-- The 32-bit checksum of `mangle.go` lines 197–202:
`crc32.ChecksumIEEE(sha256(word ‖ secret))`. -/
def checksumOf (word secret : Str) : ℕ := crc32 (sha256 (utf8 word ++ utf8 secret))

/-! ### Exact binary64 arithmetic for the index computation

`mangleWord` computes `pos = uint32((crc / MaxUint32) * float64(len(bucket)))`
in `float64`.  All values involved are positive and well inside the normal
range, so a float is represented exactly as a mantissa–exponent pair with the
mantissa rounded to 53 bits (round to nearest, ties to even). -/

/-- Number of binary digits of `n` (`f` is fuel, `f ≥ n` suffices). -/
def blenAux : ℕ → ℕ → ℕ
  | 0, _ => 0
  | f + 1, n => if n = 0 then 0 else blenAux f (n / 2) + 1

/-- Number of binary digits of `n`: `2 ^ (blen n - 1) ≤ n < 2 ^ blen n` for `n ≥ 1`. -/
def blen (n : ℕ) : ℕ := blenAux n n

/-- Round `p / q` to the nearest integer, ties to even. -/
def rneNat (p q : ℕ) : ℕ :=
  if 2 * (p % q) < q then p / q
  else if q < 2 * (p % q) then p / q + 1
  else if p / q % 2 = 0 then p / q
  else p / q + 1

/-- A positive binary64 value `m * 2 ^ e` (normal: `2 ^ 52 ≤ m ≤ 2 ^ 53`). -/
structure F where
  m : ℕ
  e : ℤ
  deriving Repr, DecidableEq

/-- Rational value of a float. -/
def fVal (x : F) : ℚ := (x.m : ℚ) * (2 : ℚ) ^ x.e

/-- Scaling exponent used to locate `⌊log2 (a/b)⌋`. -/
def rdivZ (b : ℕ) : ℕ := 64 + blen b

/-- `⌊log2 (a/b)⌋` for `a, b ≥ 1`, via the integer `A = ⌊a·2^Z/b⌋`. -/
def rdivExp (a b : ℕ) : ℤ := (blen (a * 2 ^ rdivZ b / b) : ℤ) - 1 - rdivZ b

/-- 53-bit mantissa of `a / b`: one round-to-nearest-even division after
scaling `a/b` into `[2^52, 2^53)`. -/
def rdivM (a b : ℕ) : ℕ :=
  if 0 ≤ 52 - rdivExp a b then rneNat (a * 2 ^ (52 - rdivExp a b).toNat) b
  else rneNat a (b * 2 ^ (rdivExp a b - 52).toNat)

/-- The binary64 value nearest to `a / b` (for `a, b ≥ 1`; returns `m = 0`
for `a = 0`). -/
def rdivF (a b : ℕ) : F := ⟨rdivM a b, rdivExp a b - 52⟩

/-- Go conversion `float64(n)` of a natural number. -/
def natToF (n : ℕ) : F := rdivF n 1

/-- binary64 multiplication of a float by a converted integer:
round the exact product of the mantissas back to 53 bits. -/
def fMul (x y : F) : F :=
  let r := rdivF (x.m * y.m) 1
  ⟨r.m, r.e + x.e + y.e⟩

/-- Go conversion `uint32(f)` for a nonnegative float in range: truncation. -/
def fTrunc (x : F) : ℕ :=
  if 0 ≤ x.e then x.m * 2 ^ x.e.toNat else x.m / 2 ^ (-x.e).toNat

/-- The index selection of `mangle.go` line 210:
`uint32((float64(crc) / MaxUint32) * float64(n))` where `MaxUint32 = 2^32 - 1`. -/
def posOf (crc n : ℕ) : ℕ := fTrunc (fMul (rdivF crc (2 ^ 32 - 1)) (natToF n))

/-! ### Unicode classification (Go `unicode` package), as a parameter

`mangle.go` consults `unicode.IsLetter`, `unicode.IsNumber`,
`unicode.IsUpper` and `strings.ToUpper` (rune-wise `unicode.ToUpper`).
Those tables live outside the repository, so the embedding takes them as an
explicit parameter; theorems hold for every table. -/

structure UTables where
  isLetter : Char → Bool
  isNumber : Char → Bool
  isUpper : Char → Bool
  toUpper : Char → Char

/-- `unicode.IsLetter(r) || unicode.IsNumber(r)`, the word-character test. -/
def UTables.isWordChar (u : UTables) (c : Char) : Bool := u.isLetter c || u.isNumber c

/-- `strings.ToUpper`: rune-wise upper-casing. -/
def UTables.upperStr (u : UTables) (s : Str) : Str := s.map u.toUpper

/-! ### Corpus -/

/-- The `[255][]string` corpus array: bucket `k` is meaningful for `k < 255`. -/
def Corpus := ℕ → List Str

/-- Go array indexing `corpus[i]`: panics (`none`) for `i ≥ 255`. -/
def corpusGet (c : Corpus) (i : ℕ) : Option (List Str) :=
  if i < 255 then some (c i) else none

/-- The zero value of `[255][]string`. -/
def emptyCorpus : Corpus := fun _ => []

/-- `corpus[i] = append(corpus[i], w)`. -/
def corpusAppend (c : Corpus) (i : ℕ) (w : Str) : Corpus :=
  fun k => if k = i then c i ++ [w] else c k

/-- The accumulation loop of `BuildCorpus` (`mangle.go` lines 84–87): bucket
each word by its Go `len` — its UTF-8 **byte** count.  `none` models the
panic on a word of 255 or more bytes (the corpus is a `[255]` array). -/
def buildCorpusAux : List Str → Corpus → Option Corpus
  | [], c => some c
  | w :: ws, c =>
      if byteLen w < 255 then buildCorpusAux ws (corpusAppend c (byteLen w) w) else none

/-- `BuildCorpus` (lines 81–92) fed by a word source that reports no read
error: returns the corpus and the returned `error` (`none` = `nil`). -/
def buildCorpus (ws : List Str) : Option (Corpus × Option Str) :=
  match buildCorpusAux ws emptyCorpus with
  | none => none
  | some c =>
      if c 1 = [] then
        some (c, some "Corpus must contain at least one single character word.".toList)
      else some (c, none)

/-! ### The word mapper -/

/-- The fallback loop of `mangleWord` (lines 204–207): starting from the
word's rune length, decrement while the bucket is empty, counting padding.
`none` models the panic of the initial `m.Corpus[word_len]` access when the
word has 255 or more runes. -/
def fbLoop (c : Corpus) : ℕ → ℕ → Option (ℕ × ℕ)
  | 0, pad => some (0, pad)
  | L + 1, pad =>
      match corpusGet c (L + 1) with
      | none => none
      | some bucket => if bucket = [] then fbLoop c L (pad + 1) else some (L + 1, pad)

/-- `Mangle.mangleWord` (lines 187–225).  `none` models a Go panic
(out-of-range array or slice index). -/
def mangleWord (u : UTables) (secret : Str) (c : Corpus) (word : Str) : Option Str :=
  match word with
  | [] => some []
  | w0 :: wrest =>
      let crc := checksumOf (w0 :: wrest) secret
      match fbLoop c (w0 :: wrest).length 0 with
      | none => none
      | some (0, _) => some []
      | some (L + 1, pad) =>
          let bucket := c (L + 1)
          match bucket.get? (posOf crc bucket.length) with
          | none => none
          | some w' =>
              let repl := w' ++ List.replicate pad ' '
              if u.isUpper w0 then
                if L + 1 > 1 ∧ u.isUpper (wrest.headD ' ') then
                  some (u.upperStr repl)
                else
                  match repl with
                  | [] => none
                  | r0 :: rs => some (u.toUpper r0 :: rs)
              else some repl

/-- The replacement before case adjustment (lines 192–212 of `mangleWord`):
the selected corpus word plus padding. -/
def mangleWordRaw (secret : Str) (c : Corpus) (word : Str) : Option Str :=
  match word with
  | [] => some []
  | w0 :: wrest =>
      let crc := checksumOf (w0 :: wrest) secret
      match fbLoop c (w0 :: wrest).length 0 with
      | none => none
      | some (0, _) => some []
      | some (L + 1, pad) =>
          let bucket := c (L + 1)
          match bucket.get? (posOf crc bucket.length) with
          | none => none
          | some w' => some (w' ++ List.replicate pad ' ')

/-! ### The plain-text segmenters -/

/-- Loop of `Mangle.MangleString` (lines 96–120); `word` is the run of word
characters accumulated so far. -/
def mangleStringAux (u : UTables) (secret : Str) (c : Corpus) :
    List Char → Str → Option Str
  | [], word => mangleWord u secret c word
  | ch :: rest, word =>
      if u.isWordChar ch then mangleStringAux u secret c rest (word ++ [ch])
      else if word ≠ [] then
        match mangleWord u secret c word with
        | none => none
        | some r =>
            match mangleStringAux u secret c rest [] with
            | none => none
            | some out => some (r ++ ch :: out)
      else
        match mangleStringAux u secret c rest [] with
        | none => none
        | some out => some (ch :: out)

/-- `Mangle.MangleString`. -/
def mangleString (u : UTables) (secret : Str) (c : Corpus) (s : Str) : Option Str :=
  mangleStringAux u secret c s []

/-- A Go `error` value: `io.EOF`, or any other error carrying a message.
Distinct error values may share a message. -/
inductive GoError where
  | eof
  | ioErr (msg : Str)
  deriving Repr, DecidableEq

/-- `err.Error()`. -/
def GoError.message : GoError → Str
  | .eof => "EOF".toList
  | .ioErr m => m

/-- Loop of `Mangle.MangleIO` (lines 134–163), driven by a reader that
yields the characters of the first argument and then either end-of-input
(`term = none`) or a read error (`term = some e`).  Result: bytes written
and the `error` returned (`none` = `nil`); outer `none` is a panic. -/
def mangleIOAux (u : UTables) (secret : Str) (c : Corpus) :
    List Char → Option GoError → Str → Option (Str × Option GoError)
  | [], term, word =>
      match term with
      | some e => some ([], some e)
      | none =>
          match mangleWord u secret c word with
          | none => none
          | some r => some (r, none)
  | ch :: rest, term, word =>
      if u.isWordChar ch then mangleIOAux u secret c rest term (word ++ [ch])
      else if word ≠ [] then
        match mangleWord u secret c word with
        | none => none
        | some r =>
            match mangleIOAux u secret c rest term [] with
            | none => none
            | some (out, res) => some (r ++ ch :: out, res)
      else
        match mangleIOAux u secret c rest term [] with
        | none => none
        | some (out, res) => some (ch :: out, res)

/-- `Mangle.MangleIO`. -/
def mangleIOText (u : UTables) (secret : Str) (c : Corpus)
    (input : List Char) (term : Option GoError) : Option (Str × Option GoError) :=
  mangleIOAux u secret c input term []

/-! ### The HTML driver -/

/-- An HTML token as classified by the tokenizer: a text token (with its
text content, `z.Text()`) or any other token (with its raw source bytes,
`z.Raw()`). -/
inductive Tok where
  | text (content : Str)
  | other (raw : Str)
  deriving Repr, DecidableEq

/-- `Mangle.mangleHTMLParser` (lines 166–180): the tokenizer yields `toks`
and then an error token carrying `fin` (`io.EOF` at normal end of input).
Returns the bytes written and the error returned to `MangleHTML`. -/
def mangleHTMLParser (u : UTables) (secret : Str) (c : Corpus) :
    List Tok → GoError → Option (Str × GoError)
  | [], fin => some ([], fin)
  | .text t :: rest, fin =>
      match mangleString u secret c t with
      | none => none
      | some s =>
          match mangleHTMLParser u secret c rest fin with
          | none => none
          | some (out, r) => some (s ++ out, r)
  | .other raw :: rest, fin =>
      match mangleHTMLParser u secret c rest fin with
      | none => none
      | some (out, r) => some (raw ++ out, r)

/-- `Mangle.MangleHTML` (lines 125–131): run the parser, then turn an error
whose *message* is `"EOF"` into `nil`. -/
def mangleHTML (u : UTables) (secret : Str) (c : Corpus)
    (toks : List Tok) (fin : GoError) : Option (Str × Option GoError) :=
  match mangleHTMLParser u secret c toks fin with
  | none => none
  | some (out, err) =>
      some (out, if err.message = "EOF".toList then none else some err)

/-- The per-token output the specification describes for the HTML driver:
a text token is run through the plain-text segmenter, any other token is
re-emitted as its raw source bytes. -/
def htmlTokenOutputSpec (u : UTables) (secret : Str) (c : Corpus) : Tok → Option Str
  | .text t => mangleString u secret c t
  | .other raw => some raw

/-- Concatenation of the specified per-token outputs, in order. -/
def htmlOutputSpec (u : UTables) (secret : Str) (c : Corpus) : List Tok → Option Str
  | [] => some []
  | tk :: rest =>
      match htmlTokenOutputSpec u secret c tk, htmlOutputSpec u secret c rest with
      | some x, some y => some (x ++ y)
      | _, _ => none

/-! ### Concrete classifier tables, agreeing with Go's on ASCII input -/

def asciiUpper (ch : Char) : Bool := 'A' ≤ ch && ch ≤ 'Z'

def asciiLower (ch : Char) : Bool := 'a' ≤ ch && ch ≤ 'z'

def asciiDigit (ch : Char) : Bool := '0' ≤ ch && ch ≤ '9'

def asciiToUpper (ch : Char) : Char :=
  if asciiLower ch then Char.ofNat (ch.toNat - 32) else ch

/-- Classifier tables restricted to ASCII; they coincide with the Go
`unicode` functions on every ASCII rune. -/
def asciiT : UTables :=
  ⟨fun ch => asciiLower ch || asciiUpper ch, asciiDigit, asciiUpper, asciiToUpper⟩

/-! ### Concrete corpora used by counterexamples and witnesses -/

/-- The word whose salted checksum is exactly `2^32 - 1` (secret `""`). -/
def uvWord : Str := "uvstddv".toList

/-- A corpus with a single word of length 7 (the length of `uvWord`). -/
def corpusSeven : Corpus := fun k => if k = 7 then [List.replicate 7 'a'] else []

/-- A corpus whose only word is the two-character string `"xy"`, stored in
the length-1 bucket (buckets are otherwise empty). -/
def corpusXY : Corpus := fun k => if k = 1 then ["xy".toList] else []

/-- A corpus whose length-2 bucket holds the one-code-point, two-byte word
`"é"` — exactly what `BuildCorpus` produces for the input word `"é"`. -/
def corpusEacute : Corpus := fun k => if k = 2 then ["é".toList] else []

/-- A well-formed little corpus: bucket 1 = `["z"]`, bucket 2 = `["dd"]`. -/
def corpusZD : Corpus :=
  fun k => if k = 1 then ["z".toList] else if k = 2 then ["dd".toList] else []

/-! ## Theorems

First the supporting lemmas (bit lengths, rounding error bounds, the
index-in-range theorem), then one theorem per specification claim. -/

theorem blenAux_zero (f : ℕ) : blenAux f 0 = 0 := by
  cases f <;> simp [blenAux]

theorem blenAux_spec :
    ∀ f n, n ≤ f → 1 ≤ n → 2 ^ (blenAux f n - 1) ≤ n ∧ n < 2 ^ blenAux f n := by
  intro f
  induction f with
  | zero => intro n hn h1; omega
  | succ f ih =>
    intro n hn h1
    rw [blenAux, if_neg (by omega)]
    by_cases h2 : n = 1
    · subst h2
      simp [blenAux_zero]
    · obtain ⟨hlo, hhi⟩ := ih (n / 2) (by omega) (by omega)
      have hb1 : 1 ≤ blenAux f (n / 2) := by
        by_contra hb
        have h0 : blenAux f (n / 2) = 0 := by omega
        rw [h0] at hhi
        omega
      set b := blenAux f (n / 2) with hbdef
      have hsub : b - 1 + 1 = b := by omega
      have hpow : 2 ^ b = 2 ^ (b - 1) * 2 := by
        conv_lhs => rw [← hsub]
        rw [pow_succ]
      constructor
      · have hsimp : b + 1 - 1 = b := by omega
        rw [hsimp, hpow]
        omega
      · rw [pow_succ]
        omega

theorem blen_spec (n : ℕ) (h : 1 ≤ n) : 2 ^ (blen n - 1) ≤ n ∧ n < 2 ^ blen n :=
  blenAux_spec n n le_rfl h

theorem blen_pos (n : ℕ) (h : 1 ≤ n) : 1 ≤ blen n := by
  by_contra hb
  have h0 : blen n = 0 := by omega
  have h2 := (blen_spec n h).2
  rw [h0] at h2
  omega

theorem rneNat_zero (q : ℕ) : rneNat 0 q = 0 := by
  unfold rneNat
  simp only [Nat.zero_div, Nat.zero_mod, Nat.mul_zero]
  split_ifs <;> omega

/-- Round-to-nearest is within half an ulp: `|rneNat p q - p/q| ≤ 1/2`,
stated multiplicatively over ℕ. -/
theorem rneNat_bounds (p q : ℕ) (hq : 1 ≤ q) :
    2 * q * rneNat p q ≤ 2 * p + q ∧ 2 * p ≤ 2 * q * rneNat p q + q := by
  obtain ⟨d, r, hdr, hr⟩ : ∃ d r, p = q * d + r ∧ r < q :=
    ⟨p / q, p % q, by rw [Nat.div_add_mod], Nat.mod_lt p hq⟩
  have hq0 : 0 < q := hq
  have hdiv : p / q = d := by
    rw [hdr, Nat.mul_add_div hq0, Nat.div_eq_of_lt hr, Nat.add_zero]
  have hmod : p % q = r := by
    rw [hdr, Nat.mul_add_mod, Nat.mod_eq_of_lt hr]
  unfold rneNat
  rw [hdiv, hmod, hdr]
  split_ifs with h1 h2 h3 <;> constructor <;> nlinarith

theorem rdivA_ge (a b : ℕ) (ha : 1 ≤ a) (hb : 1 ≤ b) :
    2 ^ 64 ≤ a * 2 ^ rdivZ b / b := by
  rw [Nat.le_div_iff_mul_le hb]
  have hblt : b < 2 ^ blen b := (blen_spec b hb).2
  calc 2 ^ 64 * b ≤ 2 ^ 64 * 2 ^ blen b := Nat.mul_le_mul_left _ (le_of_lt hblt)
    _ = 2 ^ rdivZ b := by rw [rdivZ, pow_add]
    _ = 1 * 2 ^ rdivZ b := (one_mul _).symm
    _ ≤ a * 2 ^ rdivZ b := Nat.mul_le_mul_right _ ha

/-- `rdivExp a b` is `⌊log2 (a/b)⌋`: the value `a/b` lies in
`[2 ^ rdivExp, 2 ^ (rdivExp + 1))`. -/
theorem rdivExp_bracket (a b : ℕ) (ha : 1 ≤ a) (hb : 1 ≤ b) :
    (2 : ℚ) ^ rdivExp a b ≤ (a : ℚ) / b ∧ (a : ℚ) / b < (2 : ℚ) ^ (rdivExp a b + 1) := by
  have hb0 : (0 : ℚ) < (b : ℚ) := by exact_mod_cast hb
  set Z := rdivZ b with hZ
  set A := a * 2 ^ Z / b with hA
  have hA1 : 1 ≤ A := le_trans (by norm_num) (rdivA_ge a b ha hb)
  obtain ⟨hAlo, hAhi⟩ := blen_spec A hA1
  have hbl1 : 1 ≤ blen A := blen_pos A hA1
  have hup : (A : ℚ) ≤ (a : ℚ) * 2 ^ Z / b := by
    calc (A : ℚ) ≤ ((a * 2 ^ Z : ℕ) : ℚ) / (b : ℚ) := by
          rw [hA]; exact Nat.cast_div_le
      _ = (a : ℚ) * 2 ^ Z / b := by push_cast; ring
  have hdn : (a : ℚ) * 2 ^ Z / b < (A : ℚ) + 1 := by
    have h1 : b * A + a * 2 ^ Z % b = a * 2 ^ Z := by rw [hA]; exact Nat.div_add_mod _ _
    have h2 : a * 2 ^ Z % b < b := Nat.mod_lt _ hb
    have hnat : a * 2 ^ Z < b * A + b := by omega
    rw [div_lt_iff hb0]
    have hcast : ((a * 2 ^ Z : ℕ) : ℚ) < ((b * A + b : ℕ) : ℚ) := Nat.cast_lt.mpr hnat
    push_cast at hcast
    nlinarith
  have hzpow : ∀ k : ℕ, ((2 : ℚ)) ^ (k : ℤ) = ((2 : ℕ) ^ k : ℕ) := by
    intro k
    push_cast
    exact zpow_natCast 2 k
  have hexp : rdivExp a b = ((blen A : ℤ) - 1) - (Z : ℤ) := by
    rw [rdivExp, ← hZ, ← hA]
  have hZpos : (0 : ℚ) < (2 : ℚ) ^ (Z : ℤ) := by positivity
  constructor
  · rw [hexp, zpow_sub₀ (by norm_num : (2 : ℚ) ≠ 0), div_le_div_iff hZpos hb0]
    have hlow : (2 : ℚ) ^ ((blen A : ℤ) - 1) ≤ (A : ℚ) := by
      have hc : (((2 : ℕ) ^ (blen A - 1) : ℕ) : ℚ) ≤ (A : ℚ) := Nat.cast_le.mpr hAlo
      rw [← hzpow] at hc
      have he : ((blen A - 1 : ℕ) : ℤ) = (blen A : ℤ) - 1 := by omega
      rwa [he] at hc
    have hZc : ((2 : ℚ)) ^ (Z : ℤ) = (2 : ℚ) ^ Z := zpow_natCast 2 Z
    calc (2 : ℚ) ^ ((blen A : ℤ) - 1) * b ≤ (A : ℚ) * b := by
          exact mul_le_mul_of_nonneg_right hlow (le_of_lt hb0)
      _ ≤ (a : ℚ) * 2 ^ Z / b * b := by
          exact mul_le_mul_of_nonneg_right hup (le_of_lt hb0)
      _ = (a : ℚ) * 2 ^ Z := by field_simp
      _ = (a : ℚ) * (2 : ℚ) ^ (Z : ℤ) := by rw [hZc]
  · rw [hexp]
    have he2 : (blen A : ℤ) - 1 - (Z : ℤ) + 1 = (blen A : ℤ) - (Z : ℤ) := by ring
    rw [he2, zpow_sub₀ (by norm_num : (2 : ℚ) ≠ 0), div_lt_div_iff hb0 hZpos]
    have hhigh : (A : ℚ) + 1 ≤ (2 : ℚ) ^ (blen A : ℤ) := by
      have hc : ((A + 1 : ℕ) : ℚ) ≤ (((2 : ℕ) ^ blen A : ℕ) : ℚ) := Nat.cast_le.mpr hAhi
      rw [← hzpow] at hc
      push_cast at hc
      linarith
    have hZc : ((2 : ℚ)) ^ (Z : ℤ) = (2 : ℚ) ^ Z := zpow_natCast 2 Z
    calc (a : ℚ) * (2 : ℚ) ^ (Z : ℤ) = (a : ℚ) * 2 ^ Z := by rw [hZc]
      _ = (a : ℚ) * 2 ^ Z / b * b := by field_simp
      _ < ((A : ℚ) + 1) * b := by
          exact mul_lt_mul_of_pos_right hdn hb0
      _ ≤ (2 : ℚ) ^ (blen A : ℤ) * b := by
          exact mul_le_mul_of_nonneg_right hhigh (le_of_lt hb0)

theorem rneNat_approx (p q : ℕ) (hq : 1 ≤ q) :
    |(rneNat p q : ℚ) - (p : ℚ) / q| ≤ 1 / 2 := by
  obtain ⟨h1, h2⟩ := rneNat_bounds p q hq
  have hq0 : (0 : ℚ) < (q : ℚ) := by exact_mod_cast hq
  have hc1 : 2 * (q : ℚ) * (rneNat p q : ℚ) ≤ 2 * (p : ℚ) + q := by exact_mod_cast h1
  have hc2 : 2 * (p : ℚ) ≤ 2 * (q : ℚ) * (rneNat p q : ℚ) + q := by exact_mod_cast h2
  rw [abs_sub_le_iff]
  constructor
  · rw [sub_le_iff_le_add]
    have hs : (1 : ℚ) / 2 + (p : ℚ) / q = ((q : ℚ) + 2 * p) / (2 * q) := by
      field_simp
      ring
    rw [hs, le_div_iff (by positivity)]
    nlinarith
  · rw [sub_le_iff_le_add, div_le_iff hq0]
    nlinarith

theorem rdivM_approx (a b : ℕ) (ha : 1 ≤ a) (hb : 1 ≤ b) :
    |(rdivM a b : ℚ) - (a : ℚ) / b * (2 : ℚ) ^ (52 - rdivExp a b)| ≤ 1 / 2 := by
  have hb0 : (0 : ℚ) < (b : ℚ) := by exact_mod_cast hb
  by_cases h : 0 ≤ 52 - rdivExp a b
  · have hM : rdivM a b = rneNat (a * 2 ^ (52 - rdivExp a b).toNat) b := by
      rw [rdivM, if_pos h]
    have happ := rneNat_approx (a * 2 ^ (52 - rdivExp a b).toNat) b hb
    have heq : ((a * 2 ^ (52 - rdivExp a b).toNat : ℕ) : ℚ) / b
        = (a : ℚ) / b * (2 : ℚ) ^ (52 - rdivExp a b) := by
      push_cast
      rw [← zpow_natCast (2 : ℚ) (52 - rdivExp a b).toNat, Int.toNat_of_nonneg h]
      ring
    rw [heq] at happ
    rwa [hM]
  · push_neg at h
    have hk : 0 ≤ rdivExp a b - 52 := by omega
    have hM : rdivM a b = rneNat a (b * 2 ^ (rdivExp a b - 52).toNat) := by
      rw [rdivM, if_neg (by omega)]
    have hq1 : 1 ≤ b * 2 ^ (rdivExp a b - 52).toNat :=
      Nat.mul_pos hb (pow_pos (by norm_num) _)
    have happ := rneNat_approx a (b * 2 ^ (rdivExp a b - 52).toNat) hq1
    have heq : (a : ℚ) / ((b * 2 ^ (rdivExp a b - 52).toNat : ℕ) : ℚ)
        = (a : ℚ) / b * (2 : ℚ) ^ (52 - rdivExp a b) := by
      push_cast
      rw [← zpow_natCast (2 : ℚ) (rdivExp a b - 52).toNat, Int.toNat_of_nonneg hk]
      rw [div_mul_eq_div_div]
      rw [div_eq_mul_inv ((a : ℚ) / b), ← zpow_neg]
      congr 1
      congr 1
      omega
    rw [heq] at happ
    rwa [hM]

/-- The rounded quotient is within a relative error of `2^-53` of the exact
quotient, and its mantissa is normalized. -/
theorem rdivF_approx (a b : ℕ) (ha : 1 ≤ a) (hb : 1 ≤ b) :
    (a : ℚ) / b * (1 - (2 : ℚ) ^ (-53 : ℤ)) ≤ fVal (rdivF a b) ∧
    fVal (rdivF a b) ≤ (a : ℚ) / b * (1 + (2 : ℚ) ^ (-53 : ℤ)) ∧
    2 ^ 52 ≤ (rdivF a b).m := by
  have hb0 : (0 : ℚ) < (b : ℚ) := by exact_mod_cast hb
  obtain ⟨hlo, hhi⟩ := rdivExp_bracket a b ha hb
  have hMapp := rdivM_approx a b ha hb
  set e := rdivExp a b with he
  set v := (a : ℚ) / b with hv
  set M := rdivM a b with hMdef
  set P := v * (2 : ℚ) ^ (52 - e) with hP
  have h2ne : (2 : ℚ) ≠ 0 := by norm_num
  have hPlo : (2 : ℚ) ^ (52 : ℤ) ≤ P := by
    have hcalc : (2 : ℚ) ^ (52 : ℤ) = (2 : ℚ) ^ e * (2 : ℚ) ^ (52 - e) := by
      rw [← zpow_add₀ h2ne]
      congr 1
      ring
    rw [hcalc, hP]
    exact mul_le_mul_of_nonneg_right hlo (by positivity)
  have hPhi : P < (2 : ℚ) ^ (53 : ℤ) := by
    have hcalc : (2 : ℚ) ^ (53 : ℤ) = (2 : ℚ) ^ (e + 1) * (2 : ℚ) ^ (52 - e) := by
      rw [← zpow_add₀ h2ne]
      congr 1
      ring
    rw [hcalc, hP]
    exact mul_lt_mul_of_pos_right hhi (by positivity)
  have hval : fVal (rdivF a b) = (M : ℚ) * (2 : ℚ) ^ (e - 52) := by
    rw [fVal, rdivF]
  have hvP : v = P * (2 : ℚ) ^ (e - 52) := by
    rw [hP, mul_assoc, ← zpow_add₀ h2ne]
    have hz : 52 - e + (e - 52) = 0 := by ring
    rw [hz, zpow_zero, mul_one]
  have hpos : (0 : ℚ) < (2 : ℚ) ^ (e - 52) := by positivity
  have habs : |fVal (rdivF a b) - v| ≤ (2 : ℚ) ^ (e - 53) := by
    rw [hval, hvP, ← sub_mul, abs_mul, abs_of_pos hpos]
    have hstep : |(M : ℚ) - P| * (2 : ℚ) ^ (e - 52) ≤ 1 / 2 * (2 : ℚ) ^ (e - 52) :=
      mul_le_mul_of_nonneg_right hMapp (le_of_lt hpos)
    have hsplit : (2 : ℚ) ^ (e - 53) = (2 : ℚ) ^ (-1 : ℤ) * (2 : ℚ) ^ (e - 52) := by
      rw [← zpow_add₀ h2ne]
      congr 1
      ring
    refine le_trans hstep (le_of_eq ?_)
    rw [hsplit]
    norm_num
  have hsmall : (2 : ℚ) ^ (e - 53) ≤ v * (2 : ℚ) ^ (-53 : ℤ) := by
    have hcalc : (2 : ℚ) ^ (e - 53) = (2 : ℚ) ^ e * (2 : ℚ) ^ (-53 : ℤ) := by
      have h0 : e - 53 = e + (-53) := by ring
      rw [h0, zpow_add₀ h2ne]
    rw [hcalc]
    exact mul_le_mul_of_nonneg_right hlo (by positivity)
  rw [abs_sub_le_iff] at habs
  refine ⟨?_, ?_, ?_⟩
  · have := habs.2
    nlinarith [hsmall]
  · have := habs.1
    nlinarith [hsmall]
  · have hMge : (2 : ℚ) ^ (52 : ℤ) - 1 / 2 ≤ (M : ℚ) := by
      rw [abs_sub_le_iff] at hMapp
      have := hMapp.2
      linarith
    have hq : ((2 ^ 52 - 1 : ℕ) : ℚ) < (M : ℚ) := by
      have hcast : ((2 ^ 52 - 1 : ℕ) : ℚ) = (2 : ℚ) ^ (52 : ℤ) - 1 := by
        push_cast
        norm_num
      rw [hcast]
      linarith
    have := Nat.cast_lt.mp hq
    rw [rdivF]
    simp only
    omega

theorem fTrunc_le (x : F) : (fTrunc x : ℚ) ≤ fVal x := by
  rw [fTrunc, fVal]
  split_ifs with h
  · apply le_of_eq
    push_cast
    rw [← zpow_natCast (2 : ℚ) x.e.toNat, Int.toNat_of_nonneg h]
  · push_neg at h
    have hke : ((-x.e).toNat : ℤ) = -x.e := Int.toNat_of_nonneg (by omega)
    calc ((x.m / 2 ^ (-x.e).toNat : ℕ) : ℚ)
        ≤ ((x.m : ℕ) : ℚ) / (((2 : ℕ) ^ (-x.e).toNat : ℕ) : ℚ) := Nat.cast_div_le
      _ = (x.m : ℚ) * (2 : ℚ) ^ x.e := by
          push_cast
          rw [div_eq_mul_inv, ← zpow_natCast (2 : ℚ) (-x.e).toNat, ← zpow_neg, hke, neg_neg]

theorem fVal_nonneg (x : F) : 0 ≤ fVal x := by
  rw [fVal]
  positivity

theorem rdivM_zeroNum (b : ℕ) : rdivM 0 b = 0 := by
  rw [rdivM]
  split_ifs
  · rw [Nat.zero_mul, rneNat_zero]
  · rw [rneNat_zero]

theorem posOf_zeroCrc (n : ℕ) : posOf 0 n = 0 := by
  rw [posOf, fMul, fTrunc]
  simp only [rdivF, rdivM_zeroNum, Nat.zero_mul]
  split_ifs <;> simp

/-- For every checksum up to `2^32 - 2` the selected index is in range:
`uint32((crc / MaxUint32) * float64(n)) < n`. -/
theorem posOf_lt (c n : ℕ) (hc : c ≤ 2 ^ 32 - 2) (hn : 1 ≤ n) : posOf c n < n := by
  rcases Nat.eq_zero_or_pos c with hc0 | hc1
  · rw [hc0, posOf_zeroCrc]
    omega
  · have hB1 : (1 : ℕ) ≤ 2 ^ 32 - 1 := by norm_num
    obtain ⟨hx_lo, hx_hi, hx_m⟩ := rdivF_approx c (2 ^ 32 - 1) hc1 hB1
    obtain ⟨hy_lo, hy_hi, hy_m⟩ := rdivF_approx n 1 hn le_rfl
    set x := rdivF c (2 ^ 32 - 1) with hx
    set y := rdivF n 1 with hy
    have h2ne : (2 : ℚ) ≠ 0 := by norm_num
    have hBcast : (((2 ^ 32 - 1 : ℕ) : ℚ)) = 4294967295 := by norm_num
    have hccast : (c : ℚ) ≤ 4294967294 := by
      have : ((c : ℕ) : ℚ) ≤ ((2 ^ 32 - 2 : ℕ) : ℚ) := Nat.cast_le.mpr hc
      calc (c : ℚ) ≤ ((2 ^ 32 - 2 : ℕ) : ℚ) := this
        _ = 4294967294 := by norm_num
    have hvc : (c : ℚ) / ((2 ^ 32 - 1 : ℕ) : ℚ) ≤ 1 - (2 : ℚ) ^ (-32 : ℤ) := by
      rw [hBcast, div_le_iff (by norm_num : (0 : ℚ) < 4294967295)]
      have hz : (2 : ℚ) ^ (-32 : ℤ) = 1 / 4294967296 := by norm_num
      rw [hz]
      norm_num
      linarith
    have hvpos : 0 ≤ (c : ℚ) / ((2 ^ 32 - 1 : ℕ) : ℚ) := by positivity
    have heps : (0 : ℚ) < 1 + (2 : ℚ) ^ (-53 : ℤ) := by positivity
    have hx1 : fVal x ≤ 1 - (2 : ℚ) ^ (-33 : ℤ) := by
      have step1 : fVal x ≤ (1 - (2 : ℚ) ^ (-32 : ℤ)) * (1 + (2 : ℚ) ^ (-53 : ℤ)) := by
        refine le_trans hx_hi ?_
        exact mul_le_mul_of_nonneg_right hvc (le_of_lt heps)
      refine le_trans step1 ?_
      have h32 : (2 : ℚ) ^ (-32 : ℤ) = 1 / 4294967296 := by norm_num
      have h33 : (2 : ℚ) ^ (-33 : ℤ) = 1 / 8589934592 := by norm_num
      have h53 : (2 : ℚ) ^ (-53 : ℤ) = 1 / 9007199254740992 := by norm_num
      rw [h32, h33, h53]
      norm_num
    have hy1 : fVal y ≤ (n : ℚ) * (1 + (2 : ℚ) ^ (-53 : ℤ)) := by
      refine le_trans hy_hi (le_of_eq ?_)
      norm_num
    have hmm : 1 ≤ x.m * y.m := by
      have : (0 : ℕ) < x.m * y.m := Nat.mul_pos (by omega) (by omega)
      omega
    obtain ⟨hp_lo, hp_hi, hp_m⟩ := rdivF_approx (x.m * y.m) 1 hmm le_rfl
    have hfmul : fVal (fMul x y)
        = fVal (rdivF (x.m * y.m) 1) * (2 : ℚ) ^ x.e * (2 : ℚ) ^ y.e := by
      rw [fVal, fVal, fMul]
      simp only
      rw [zpow_add₀ h2ne, zpow_add₀ h2ne]
      ring
    have hxval : fVal x = (x.m : ℚ) * (2 : ℚ) ^ x.e := rfl
    have hyval : fVal y = (y.m : ℚ) * (2 : ℚ) ^ y.e := rfl
    have hxe : (0 : ℚ) < (2 : ℚ) ^ x.e := by positivity
    have hye : (0 : ℚ) < (2 : ℚ) ^ y.e := by positivity
    have hprod : fVal (fMul x y) ≤ fVal x * fVal y * (1 + (2 : ℚ) ^ (-53 : ℤ)) := by
      rw [hfmul]
      have hcast : ((x.m * y.m : ℕ) : ℚ) / ((1 : ℕ) : ℚ) = (x.m : ℚ) * (y.m : ℚ) := by
        push_cast
        ring
      have hple : fVal (rdivF (x.m * y.m) 1)
          ≤ (x.m : ℚ) * (y.m : ℚ) * (1 + (2 : ℚ) ^ (-53 : ℤ)) := by
        rw [← hcast]
        exact hp_hi
      calc fVal (rdivF (x.m * y.m) 1) * (2 : ℚ) ^ x.e * (2 : ℚ) ^ y.e
          ≤ (x.m : ℚ) * (y.m : ℚ) * (1 + (2 : ℚ) ^ (-53 : ℤ)) * (2 : ℚ) ^ x.e * (2 : ℚ) ^ y.e := by
            exact mul_le_mul_of_nonneg_right
              (mul_le_mul_of_nonneg_right hple (le_of_lt hxe)) (le_of_lt hye)
        _ = fVal x * fVal y * (1 + (2 : ℚ) ^ (-53 : ℤ)) := by
            rw [hxval, hyval]
            ring
    have hfinal : fVal (fMul x y) < (n : ℚ) := by
      have hxnn : 0 ≤ fVal x := fVal_nonneg x
      have hynn : 0 ≤ fVal y := fVal_nonneg y
      have hchain : fVal x * fVal y * (1 + (2 : ℚ) ^ (-53 : ℤ))
          ≤ (1 - (2 : ℚ) ^ (-33 : ℤ)) * ((n : ℚ) * (1 + (2 : ℚ) ^ (-53 : ℤ)))
            * (1 + (2 : ℚ) ^ (-53 : ℤ)) := by
        have h1 : fVal x * fVal y ≤ (1 - (2 : ℚ) ^ (-33 : ℤ)) * ((n : ℚ) * (1 + (2 : ℚ) ^ (-53 : ℤ))) := by
          have hxub : (0:ℚ) ≤ 1 - (2 : ℚ) ^ (-33 : ℤ) := by
            have h33 : (2 : ℚ) ^ (-33 : ℤ) = 1 / 8589934592 := by norm_num
            rw [h33]
            norm_num
          exact mul_le_mul hx1 hy1 hynn hxub
        exact mul_le_mul_of_nonneg_right h1 (le_of_lt heps)
      have hq : (1 - (2 : ℚ) ^ (-33 : ℤ)) * (1 + (2 : ℚ) ^ (-53 : ℤ))
          * (1 + (2 : ℚ) ^ (-53 : ℤ)) < 1 := by
        have h33 : (2 : ℚ) ^ (-33 : ℤ) = 1 / 8589934592 := by norm_num
        have h53 : (2 : ℚ) ^ (-53 : ℤ) = 1 / 9007199254740992 := by norm_num
        rw [h33, h53]
        norm_num
      have hn1 : (1 : ℚ) ≤ (n : ℚ) := by exact_mod_cast hn
      calc fVal (fMul x y) ≤ fVal x * fVal y * (1 + (2 : ℚ) ^ (-53 : ℤ)) := hprod
        _ ≤ (1 - (2 : ℚ) ^ (-33 : ℤ)) * ((n : ℚ) * (1 + (2 : ℚ) ^ (-53 : ℤ)))
            * (1 + (2 : ℚ) ^ (-53 : ℤ)) := hchain
        _ = (n : ℚ) * ((1 - (2 : ℚ) ^ (-33 : ℤ)) * (1 + (2 : ℚ) ^ (-53 : ℤ))
            * (1 + (2 : ℚ) ^ (-53 : ℤ))) := by ring
        _ < (n : ℚ) * 1 := by
            exact mul_lt_mul_of_pos_left hq (by linarith)
        _ = (n : ℚ) := by ring
    have htr : (posOf c n : ℚ) < (n : ℚ) := by
      rw [posOf]
      calc ((fTrunc (fMul x y) : ℕ) : ℚ) ≤ fVal (fMul x y) := fTrunc_le _
        _ < (n : ℚ) := hfinal
    exact_mod_cast htr

theorem xorAux_lt : ∀ f a b, xorAux f a b < 2 ^ f := by
  intro f
  induction f with
  | zero => intro a b; simp [xorAux]
  | succ f ih =>
    intro a b
    rw [xorAux, pow_succ]
    have h := ih (a / 2) (b / 2)
    split_ifs <;> omega

theorem crc32_lt (bs : List ℕ) : crc32 bs < 2 ^ 32 := xorAux_lt 32 _ _

theorem checksumOf_lt (w s : Str) : checksumOf w s < 2 ^ 32 := crc32_lt _

/-- The fallback loop (`mangle.go` lines 204–207) terminates when started
below the array bound, preserves `L + pad`, stops at the first non-empty
bucket, and leaves all buckets strictly in between empty. -/
theorem fbLoop_spec (c : Corpus) :
    ∀ L pad, L < 255 →
      ∃ L2 pad2, fbLoop c L pad = some (L2, pad2) ∧ L2 + pad2 = L + pad ∧ L2 ≤ L ∧
        (L2 ≠ 0 → c L2 ≠ []) ∧ ∀ K, L2 < K → K ≤ L → c K = [] := by
  intro L
  induction L with
  | zero =>
    intro pad _
    exact ⟨0, pad, rfl, rfl, le_rfl, fun h0 => absurd rfl h0, fun K h1 h2 => by omega⟩
  | succ L ih =>
    intro pad h
    have hg : corpusGet c (L + 1) = some (c (L + 1)) := by rw [corpusGet, if_pos h]
    by_cases hb : c (L + 1) = []
    · have hrw : fbLoop c (L + 1) pad = fbLoop c L (pad + 1) := by
        rw [fbLoop, hg]
        simp only [if_pos hb]
      obtain ⟨L2, pad2, heq, hsum, hle, hne, hall⟩ := ih (pad + 1) (by omega)
      refine ⟨L2, pad2, by rw [hrw, heq], by omega, by omega, hne, fun K h1 h2 => ?_⟩
      rcases Nat.lt_or_ge K (L + 1) with hK | hK
      · exact hall K h1 (by omega)
      · have hK1 : K = L + 1 := by omega
        rw [hK1]
        exact hb
    · have hrw : fbLoop c (L + 1) pad = some (L + 1, pad) := by
        rw [fbLoop, hg]
        simp only [if_neg hb]
      exact ⟨L + 1, pad, hrw, rfl, le_rfl, fun _ => hb, fun K h1 h2 => by omega⟩

theorem mangleWord_cons (u : UTables) (s : Str) (c : Corpus) (w0 : Char) (wrest : Str) :
    mangleWord u s c (w0 :: wrest) =
      match fbLoop c (w0 :: wrest).length 0 with
      | none => none
      | some (0, _) => some []
      | some (L + 1, pad) =>
          match (c (L + 1)).get? (posOf (checksumOf (w0 :: wrest) s) (c (L + 1)).length) with
          | none => none
          | some w' =>
              if u.isUpper w0 then
                if L + 1 > 1 ∧ u.isUpper (wrest.headD ' ') then
                  some (u.upperStr (w' ++ List.replicate pad ' '))
                else
                  match w' ++ List.replicate pad ' ' with
                  | [] => none
                  | r0 :: rs => some (u.toUpper r0 :: rs)
              else some (w' ++ List.replicate pad ' ') := by
  rw [mangleWord]

/-- Under the stated side conditions `mangleWord` always returns, and
returns the empty string exactly in the degenerate situations the
specification describes. -/
theorem mangleWord_total (u : UTables) (s : Str) (c : Corpus) (w : Str)
    (hlen : w.length < 255)
    (hne : ∀ k wc, wc ∈ c k → wc ≠ [])
    (hck : checksumOf w s ≠ 2 ^ 32 - 1) :
    ∃ r, mangleWord u s c w = some r ∧ (w = [] → r = []) ∧
      ((∀ K, K ≤ w.length → c K = []) → r = []) := by
  cases w with
  | nil => exact ⟨[], rfl, fun _ => rfl, fun _ => rfl⟩
  | cons w0 wrest =>
    obtain ⟨L2, pad2, heq, hsum, hle, hbne, _⟩ :=
      fbLoop_spec c (w0 :: wrest).length 0 hlen
    rw [mangleWord_cons]
    cases L2 with
    | zero =>
      simp only [heq]
      exact ⟨[], rfl, fun _ => rfl, fun _ => rfl⟩
    | succ L =>
      have hbne' : c (L + 1) ≠ [] := hbne (by omega)
      have hn1 : 0 < (c (L + 1)).length := List.length_pos.mpr hbne'
      have hcklt := checksumOf_lt (w0 :: wrest) s
      have hpos := posOf_lt (checksumOf (w0 :: wrest) s) (c (L + 1)).length (by omega) hn1
      have hget := List.get?_eq_get hpos
      simp only [heq, hget]
      have hmem : (c (L + 1)).get ⟨_, hpos⟩ ∈ c (L + 1) := List.get_mem _ _ _
      have hwcne : (c (L + 1)).get ⟨_, hpos⟩ ≠ [] := hne _ _ hmem
      obtain ⟨v0, vrest, hv⟩ := List.exists_cons_of_ne_nil hwcne
      have hcontra : ¬ (∀ K, K ≤ (w0 :: wrest).length → c K = []) := by
        intro hK
        exact hbne' (hK (L + 1) (by omega))
      simp only [hv]
      by_cases hup : u.isUpper w0
      · by_cases hc2 : L + 1 > 1 ∧ u.isUpper (wrest.headD ' ')
        · rw [if_pos hup, if_pos hc2]
          exact ⟨_, rfl, fun h => absurd h (by simp), fun h => absurd h hcontra⟩
        · rw [if_pos hup, if_neg hc2]
          exact ⟨_, rfl, fun h => absurd h (by simp), fun h => absurd h hcontra⟩
      · rw [if_neg hup]
        exact ⟨_, rfl, fun h => absurd h (by simp), fun h => absurd h hcontra⟩

/-- The fallback loop preserves `L + pad` whenever it returns. -/
theorem fbLoop_sum (c : Corpus) :
    ∀ L pad L2 pad2, fbLoop c L pad = some (L2, pad2) → L2 + pad2 = L + pad := by
  intro L
  induction L with
  | zero =>
    intro pad L2 pad2 h
    rw [fbLoop] at h
    injection h with h'
    injection h' with h1 h2
    omega
  | succ L ih =>
    intro pad L2 pad2 h
    rw [fbLoop] at h
    split at h
    · exact absurd h (by simp)
    · split at h
      · have := ih (pad + 1) L2 pad2 h
        omega
      · injection h with h'
        injection h' with h1 h2
        omega

/-- If every corpus word sits in the bucket matching its rune length, then
every non-empty replacement has exactly the rune length of the input word. -/
theorem mangleWord_length (u : UTables) (s : Str) (c : Corpus) (w : Str)
    (hwf : ∀ k wc, wc ∈ c k → wc.length = k) :
    ∀ r, mangleWord u s c w = some r → r ≠ [] → r.length = w.length := by
  intro r hr hrne
  cases w with
  | nil =>
    simp only [mangleWord, Option.some.injEq] at hr
    exact absurd hr.symm hrne
  | cons w0 wrest =>
    rw [mangleWord_cons] at hr
    split at hr
    · exact absurd hr (by simp)
    · have h0 : ([] : Str) = r := by injection hr
      exact absurd h0.symm hrne
    · next L pad heq =>
      have hsum := fbLoop_sum c (w0 :: wrest).length 0 (L + 1) pad heq
      split at hr
      · exact absurd hr (by simp)
      · next w' hget =>
        have hw' : w'.length = L + 1 := hwf _ _ (List.get?_mem hget)
        have hlenrepl : (w' ++ List.replicate pad ' ').length = (w0 :: wrest).length := by
          rw [List.length_append, List.length_replicate]
          omega
        split_ifs at hr with h1 h2
        · have hrr : u.upperStr (w' ++ List.replicate pad ' ') = r := by injection hr
          rw [← hrr, UTables.upperStr, List.length_map]
          exact hlenrepl
        · split at hr
          · exact absurd hr (by simp)
          · next r0 rs hsplit =>
            have hrr : u.toUpper r0 :: rs = r := by injection hr
            have hl2 := congrArg List.length hsplit
            rw [hlenrepl] at hl2
            rw [← hrr]
            simp only [List.length_cons] at hl2 ⊢
            omega
        · have hrr : w' ++ List.replicate pad ' ' = r := by injection hr
          rw [← hrr]
          exact hlenrepl

theorem mangleWordRaw_cons (s : Str) (c : Corpus) (w0 : Char) (wrest : Str) :
    mangleWordRaw s c (w0 :: wrest) =
      match fbLoop c (w0 :: wrest).length 0 with
      | none => none
      | some (0, _) => some []
      | some (L + 1, pad) =>
          match (c (L + 1)).get? (posOf (checksumOf (w0 :: wrest) s) (c (L + 1)).length) with
          | none => none
          | some w' => some (w' ++ List.replicate pad ' ') := by
  rw [mangleWordRaw]

/-- Case transfer for a word whose first two runes are uppercase: the
result is the fully upper-cased raw replacement, provided length-1 bucket
words are single runes and upper-casing fixes the space character. -/
theorem mangleWord_case (u : UTables) (s : Str) (c : Corpus) (w0 : Char) (wrest : Str)
    (hsp : u.toUpper ' ' = ' ')
    (hb1 : ∀ wc, wc ∈ c 1 → wc.length = 1)
    (hu0 : u.isUpper w0 = true)
    (hu1 : ∀ ch rest2, wrest = ch :: rest2 → u.isUpper ch = true) :
    mangleWord u s c (w0 :: wrest) =
      Option.map u.upperStr (mangleWordRaw s c (w0 :: wrest)) := by
  rw [mangleWord_cons, mangleWordRaw_cons]
  cases hfb : fbLoop c (w0 :: wrest).length 0 with
  | none => simp
  | some pr =>
    obtain ⟨L2, pad⟩ := pr
    cases L2 with
    | zero => simp [UTables.upperStr]
    | succ L =>
      have hsum := fbLoop_sum c _ 0 _ _ hfb
      cases hget : (c (L + 1)).get? (posOf (checksumOf (w0 :: wrest) s) (c (L + 1)).length) with
      | none => simp only [hget, Option.map_none']
      | some w' =>
        simp only [hget, Option.map_some']
        rw [if_pos hu0]
        cases L with
        | zero =>
          rw [if_neg (fun h => by omega : ¬(0 + 1 > 1 ∧ u.isUpper (wrest.headD ' ') = true))]
          have hw1 : w'.length = 1 := hb1 w' (List.get?_mem hget)
          obtain ⟨v, hv⟩ : ∃ v, w' = [v] := List.length_eq_one.mp hw1
          subst hv
          simp [UTables.upperStr, List.map_replicate, hsp]
        | succ L' =>
          obtain ⟨ch, rest2, hw⟩ : ∃ ch rest2, wrest = ch :: rest2 := by
            cases wrest with
            | nil => simp at hsum; omega
            | cons a b => exact ⟨a, b, rfl⟩
          have hchu : u.isUpper ch = true := hu1 ch rest2 hw
          rw [if_pos ⟨by omega, by rw [hw]; simpa using hchu⟩]

theorem buildCorpusAux_spec :
    ∀ ws c0, (∀ w, w ∈ ws → byteLen w ≤ 254) →
      ∃ c, buildCorpusAux ws c0 = some c ∧
        ∀ k, c k = c0 k ++ ws.filter (fun x => byteLen x == k) := by
  intro ws
  induction ws with
  | nil =>
    intro c0 _
    exact ⟨c0, rfl, fun k => by simp⟩
  | cons w ws ih =>
    intro c0 hlen
    have hw : byteLen w ≤ 254 := hlen w (by simp)
    have hstep : buildCorpusAux (w :: ws) c0
        = buildCorpusAux ws (corpusAppend c0 (byteLen w) w) := by
      rw [buildCorpusAux, if_pos (by omega)]
    obtain ⟨c, hc, hck⟩ := ih (corpusAppend c0 (byteLen w) w)
      (fun x hx => hlen x (by simp [hx]))
    refine ⟨c, by rw [hstep]; exact hc, fun k => ?_⟩
    rw [hck k, corpusAppend]
    by_cases hk : byteLen w = k
    · simp only [List.filter_cons, hk, beq_self_eq_true, if_pos, if_true]
      rw [List.append_assoc, List.singleton_append]
    · have hbk : (byteLen w == k) = false := beq_eq_false_iff_ne.mpr hk
      simp only [List.filter_cons, hbk, Bool.false_eq_true, if_false]
      rw [if_neg (fun h => hk h.symm)]

/-- `buildCorpus` on words of at most 254 bytes: buckets collect words by
byte length, in input order, and the error is returned exactly when the
length-1 bucket is empty. -/
theorem buildCorpus_spec (ws : List Str) (hlen : ∀ w, w ∈ ws → byteLen w ≤ 254) :
    ∃ c err, buildCorpus ws = some (c, err) ∧
      (∀ k, c k = ws.filter (fun x => byteLen x == k)) ∧
      (err.isSome ↔ c 1 = []) := by
  obtain ⟨c, hc, hck⟩ := buildCorpusAux_spec ws emptyCorpus hlen
  have hck' : ∀ k, c k = ws.filter (fun x => byteLen x == k) := fun k => by
    rw [hck k]
    simp [emptyCorpus]
  by_cases h1 : c 1 = []
  · refine ⟨c, some "Corpus must contain at least one single character word.".toList, ?_, hck', ?_⟩
    · rw [buildCorpus]
      simp only [hc]
      rw [if_pos h1]
    · simp [h1]
  · refine ⟨c, none, ?_, hck', ?_⟩
    · rw [buildCorpus]
      simp only [hc]
      rw [if_neg h1]
    · simp [h1]

/-- The streaming loop on an error-free stream computes exactly the
string-mode loop, for every intermediate accumulated word. -/
theorem mangleIOAux_eq_stringAux (u : UTables) (s : Str) (c : Corpus) :
    ∀ input word, mangleIOAux u s c input none word
      = Option.map (fun out => (out, (none : Option GoError))) (mangleStringAux u s c input word) := by
  intro input
  induction input with
  | nil =>
    intro word
    cases hmw : mangleWord u s c word with
    | none => simp [mangleIOAux, mangleStringAux, hmw]
    | some r => simp [mangleIOAux, mangleStringAux, hmw]
  | cons ch rest ih =>
    intro word
    by_cases hwc : u.isWordChar ch = true
    · simp only [mangleIOAux, mangleStringAux, hwc, if_true]
      exact ih (word ++ [ch])
    · by_cases hwe : word = []
      · cases hrec : mangleStringAux u s c rest [] with
        | none => simp [mangleIOAux, mangleStringAux, hwc, hwe, ih, hrec]
        | some out => simp [mangleIOAux, mangleStringAux, hwc, hwe, ih, hrec]
      · cases hmw : mangleWord u s c word with
        | none => simp [mangleIOAux, mangleStringAux, hwc, hwe, hmw]
        | some r =>
          cases hrec : mangleStringAux u s c rest [] with
          | none => simp [mangleIOAux, mangleStringAux, hwc, hwe, hmw, ih, hrec]
          | some out => simp [mangleIOAux, mangleStringAux, hwc, hwe, hmw, ih, hrec]

/-- On a stream ending in a read error, a trailing run of word characters
is only accumulated, never written. -/
theorem mangleIOAux_err_tail (u : UTables) (s : Str) (c : Corpus) (e : GoError) :
    ∀ t word, (∀ ch, ch ∈ t → u.isWordChar ch = true) →
      mangleIOAux u s c t (some e) word = some ([], some e) := by
  intro t
  induction t with
  | nil => intro word _; rfl
  | cons ch rest ih =>
    intro word hall
    have hch := hall ch (by simp)
    simp only [mangleIOAux, hch, if_true]
    exact ih (word ++ [ch]) (fun x hx => hall x (by simp [hx]))

/-- Splitting a failing stream at the last separator: the output written
before the error is exactly the string-mode output of the prefix, and the
trailing in-progress word is dropped. -/
theorem mangleIOAux_err_split (u : UTables) (s : Str) (c : Corpus) (e : GoError) (t : List Char)
    (ht : ∀ ch, ch ∈ t → u.isWordChar ch = true) :
    ∀ p word, (∀ ch, p.getLast? = some ch → u.isWordChar ch = false) →
      (p = [] → word = []) →
      mangleIOAux u s c (p ++ t) (some e) word
        = Option.map (fun out => (out, some e)) (mangleStringAux u s c p word) := by
  intro p
  induction p with
  | nil =>
    intro word _ hw
    rw [hw rfl, List.nil_append, mangleIOAux_err_tail u s c e t [] ht]
    simp [mangleStringAux, mangleWord]
  | cons ch rest ih =>
    intro word hlast hne
    have hrest_last : ∀ ch2, rest.getLast? = some ch2 → u.isWordChar ch2 = false := by
      intro ch2 h2
      apply hlast
      cases rest with
      | nil => simp at h2
      | cons a b =>
        rw [List.getLast?_cons_cons]
        exact h2
    by_cases hwc : u.isWordChar ch = true
    · have hrne : rest ≠ [] := by
        intro h0
        subst h0
        have hl := hlast ch (by simp)
        rw [hwc] at hl
        exact absurd hl (by simp)
      simp only [List.cons_append, mangleIOAux, mangleStringAux, hwc, if_true]
      exact ih (word ++ [ch]) hrest_last (fun h0 => absurd h0 hrne)
    · by_cases hwe : word = []
      · cases hrec : mangleStringAux u s c rest [] with
        | none =>
          have hih := ih [] hrest_last (fun _ => rfl)
          rw [hrec] at hih
          simp [mangleIOAux, mangleStringAux, hwc, hwe, hih, hrec]
        | some out =>
          have hih := ih [] hrest_last (fun _ => rfl)
          rw [hrec] at hih
          simp [mangleIOAux, mangleStringAux, hwc, hwe, hih, hrec]
      · cases hmw : mangleWord u s c word with
        | none => simp [mangleIOAux, mangleStringAux, hwc, hwe, hmw]
        | some r =>
          cases hrec : mangleStringAux u s c rest [] with
          | none =>
            have hih := ih [] hrest_last (fun _ => rfl)
            rw [hrec] at hih
            simp [mangleIOAux, mangleStringAux, hwc, hwe, hmw, hih, hrec]
          | some out =>
            have hih := ih [] hrest_last (fun _ => rfl)
            rw [hrec] at hih
            simp [mangleIOAux, mangleStringAux, hwc, hwe, hmw, hih, hrec]

/-- The HTML driver writes, token by token, exactly the output the
specification describes, and hands the terminal error through unchanged. -/
theorem mangleHTMLParser_spec (u : UTables) (s : Str) (c : Corpus) :
    ∀ toks fin, mangleHTMLParser u s c toks fin
      = Option.map (fun out => (out, fin)) (htmlOutputSpec u s c toks) := by
  intro toks
  induction toks with
  | nil => intro fin; rfl
  | cons tk rest ih =>
    intro fin
    cases tk with
    | text t =>
      cases hms : mangleString u s c t with
      | none => simp [mangleHTMLParser, htmlOutputSpec, htmlTokenOutputSpec, hms]
      | some x =>
        cases hrec : htmlOutputSpec u s c rest with
        | none => simp [mangleHTMLParser, htmlOutputSpec, htmlTokenOutputSpec, hms, ih, hrec]
        | some y => simp [mangleHTMLParser, htmlOutputSpec, htmlTokenOutputSpec, hms, ih, hrec]
    | other raw =>
      cases hrec : htmlOutputSpec u s c rest with
      | none => simp [mangleHTMLParser, htmlOutputSpec, htmlTokenOutputSpec, ih, hrec]
      | some y => simp [mangleHTMLParser, htmlOutputSpec, htmlTokenOutputSpec, ih, hrec]

/-- `MangleHTML` returns `nil` exactly when the terminal error's *message*
is `"EOF"`, and otherwise returns the terminal error itself. -/
theorem mangleHTML_err (u : UTables) (s : Str) (c : Corpus) (toks : List Tok)
    (fin : GoError) (out : Str) (r : Option GoError)
    (h : mangleHTML u s c toks fin = some (out, r)) :
    (r = none ↔ fin.message = "EOF".toList) ∧ (r ≠ none → r = some fin) := by
  rw [mangleHTML] at h
  have hspec := mangleHTMLParser_spec u s c toks fin
  cases hp : mangleHTMLParser u s c toks fin with
  | none => rw [hp] at h; exact absurd h (by simp)
  | some pr =>
    obtain ⟨out2, fin2⟩ := pr
    rw [hp] at hspec
    have hfin2 : fin2 = fin := by
      cases hrec : htmlOutputSpec u s c toks with
      | none => rw [hrec] at hspec; exact absurd hspec (by simp)
      | some o =>
        rw [hrec] at hspec
        simp only [Option.map_some'] at hspec
        injection hspec with h1
        injection h1 with h2 h3
    subst hfin2
    rw [hp] at h
    simp only [Option.some.injEq, Prod.mk.injEq] at h
    obtain ⟨-, hr⟩ := h
    by_cases hm : fin2.message = "EOF".toList
    · rw [if_pos hm] at hr
      exact ⟨by simp [← hr, hm], fun hne => absurd hr.symm hne⟩
    · rw [if_neg hm] at hr
      refine ⟨?_, fun _ => hr.symm⟩
      constructor
      · intro h0
        rw [h0] at hr
        exact absurd hr (by simp)
      · intro h0
        exact absurd h0 hm

/-- The plain-text streaming entry returns the reader's error whenever the
stream fails, for every run that completes without a panic. -/
theorem mangleIOAux_err_result (u : UTables) (s : Str) (c : Corpus) (e : GoError) :
    ∀ input word out r, mangleIOAux u s c input (some e) word = some (out, r) →
      r = some e := by
  intro input
  induction input with
  | nil =>
    intro word out r h
    simp only [mangleIOAux, Option.some.injEq, Prod.mk.injEq] at h
    exact h.2.symm
  | cons ch rest ih =>
    intro word out r h
    by_cases hwc : u.isWordChar ch = true
    · rw [mangleIOAux, if_pos hwc] at h
      exact ih _ _ _ h
    · rw [mangleIOAux, if_neg hwc] at h
      by_cases hwe : word = []
      · rw [if_neg (by simp [hwe])] at h
        cases hrec : mangleIOAux u s c rest (some e) [] with
        | none => rw [hrec] at h; exact absurd h (by simp)
        | some pr =>
          obtain ⟨out2, res2⟩ := pr
          rw [hrec] at h
          simp only [Option.some.injEq, Prod.mk.injEq] at h
          rw [← h.2]
          exact ih _ _ _ hrec
      · rw [if_pos (by simp [hwe])] at h
        cases hmw : mangleWord u s c word with
        | none => rw [hmw] at h; exact absurd h (by simp)
        | some rr =>
          rw [hmw] at h
          cases hrec : mangleIOAux u s c rest (some e) [] with
          | none => rw [hrec] at h; exact absurd h (by simp)
          | some pr =>
            obtain ⟨out2, res2⟩ := pr
            rw [hrec] at h
            simp only [Option.some.injEq, Prod.mk.injEq] at h
            rw [← h.2]
            exact ih _ _ _ hrec

/-- SHA-256 implementation check against the FIPS 180-2 test vector. -/
theorem sha256_abc_vector :
    sha256 (utf8 "abc".toList) =
      [186, 120, 22, 191, 143, 1, 207, 234, 65, 65,
       64, 222, 93, 174, 34, 35, 176, 3, 97, 163,
       150, 23, 122, 156, 180, 16, 255, 97, 242, 0,
       21, 173] := by
  decide

/-- CRC-32 implementation check against the standard check value. -/
theorem crc32_check_vector : crc32 (utf8 "123456789".toList) = 0xCBF43926 := by
  decide

theorem corpusZD_cases (k : ℕ) (wc : Str) (h : wc ∈ corpusZD k) :
    (k = 1 ∧ wc = "z".toList) ∨ (k = 2 ∧ wc = "dd".toList) := by
  by_cases h1 : k = 1
  · subst h1
    rw [show corpusZD 1 = ["z".toList] from rfl, List.mem_singleton] at h
    exact Or.inl ⟨rfl, h⟩
  · by_cases h2 : k = 2
    · subst h2
      rw [show corpusZD 2 = ["dd".toList] from rfl, List.mem_singleton] at h
      exact Or.inr ⟨rfl, h⟩
    · rw [show corpusZD k = [] from by rw [corpusZD, if_neg h1, if_neg h2]] at h
      cases h

theorem corpusZD_wf : ∀ k wc, wc ∈ corpusZD k → wc.length = k := by
  intro k wc h
  rcases corpusZD_cases k wc h with ⟨hk, hw⟩ | ⟨hk, hw⟩ <;> subst hk <;> rw [hw] <;> rfl

theorem corpusZD_ne : ∀ k wc, wc ∈ corpusZD k → wc ≠ [] := by
  intro k wc h
  rcases corpusZD_cases k wc h with ⟨hk, hw⟩ | ⟨hk, hw⟩ <;> rw [hw] <;> decide

/-! ## Claim theorems -/

/-- C1 (counterexample): for the word `"uvstddv"` with secret `""` the
checksum is exactly `2^32 - 1`; on a one-word bucket the computed index is
`1`, which differs from the specified `⌊checksum/2^32 · 1⌋ = 0` and is not
in `[0, 0]`, so the corpus lookup indexes out of range and `mangleWord`
panics (`none`). -/
theorem c1_counterexample :
    checksumOf uvWord [] = 2 ^ 32 - 1 ∧
    posOf (checksumOf uvWord []) 1 = 1 ∧
    checksumOf uvWord [] * 1 / 2 ^ 32 = 0 ∧
    ¬ posOf (checksumOf uvWord []) 1 < 1 ∧
    mangleWord asciiT [] corpusSeven uvWord = none := by
  decide

/-- C1 (amended): the divisor is `2^32 - 1` (not `2^32`) and no clamping is
performed, but for every word whose checksum is not `2^32 - 1` the index
computed in `float64` lies in `[0, bucket_length - 1]`. -/
theorem c1_index_in_range (w s : Str) (n : ℕ) (hn : 1 ≤ n)
    (hck : checksumOf w s ≠ 2 ^ 32 - 1) :
    posOf (checksumOf w s) n < n := by
  have h1 := checksumOf_lt w s
  exact posOf_lt _ _ (by omega) hn

/-- C1 (witness): the in-range theorem applied to the word `"ab"`, secret
`""` and a bucket of three words. -/
theorem c1_witness :
    1 ≤ 3 ∧ checksumOf "ab".toList [] ≠ 2 ^ 32 - 1 ∧
    posOf (checksumOf "ab".toList []) 3 < 3 :=
  ⟨by norm_num, by decide, c1_index_in_range "ab".toList [] 3 (by norm_num) (by decide)⟩

/-- C2 (counterexample): for the all-uppercase word `"AB"` and a corpus
whose length-1 bucket holds the two-character word `"xy"`, the replacement
is `"Xy "` — only the first code point is upper-cased, because the code
tests the *fallback* length (`word_len > 1`), not the original word — so
the replacement is not uppercased in its entirety. -/
theorem c2_counterexample :
    mangleWord asciiT [] corpusXY "AB".toList = some "Xy ".toList ∧
    asciiT.upperStr "Xy ".toList ≠ "Xy ".toList ∧
    mangleWordRaw [] corpusXY "AB".toList = some "xy ".toList ∧
    asciiT.upperStr "xy ".toList ≠ "Xy ".toList := by
  decide

/-- C2 (amended): the replacement is uppercased in its entirety provided
that, when the fallback lands on the length-1 bucket, the selected word is
a single code point (as `BuildCorpus` guarantees) and upper-casing fixes
the space character; with those provisos the result equals the fully
upper-cased raw replacement. -/
theorem c2_case_transfer (u : UTables) (s : Str) (c : Corpus) (w0 : Char) (wrest : Str)
    (hsp : u.toUpper ' ' = ' ')
    (hb1 : ∀ wc, wc ∈ c 1 → wc.length = 1)
    (hu0 : u.isUpper w0 = true)
    (hu1 : ∀ ch rest2, wrest = ch :: rest2 → u.isUpper ch = true) :
    mangleWord u s c (w0 :: wrest) =
      Option.map u.upperStr (mangleWordRaw s c (w0 :: wrest)) :=
  mangleWord_case u s c w0 wrest hsp hb1 hu0 hu1

/-- C2 (witness): case transfer applied to the word `"AB"` over the
corpus with buckets `["z"]` and `["dd"]`. -/
theorem c2_witness :
    asciiT.toUpper ' ' = ' ' ∧
    mangleWord asciiT [] corpusZD ('A' :: "B".toList) =
      Option.map asciiT.upperStr (mangleWordRaw [] corpusZD ('A' :: "B".toList)) := by
  refine ⟨by decide, c2_case_transfer asciiT [] corpusZD 'A' "B".toList (by decide) ?_ (by decide) ?_⟩
  · exact fun wc hwc => corpusZD_wf 1 wc hwc
  · intro ch rest2 h
    injection h with h1 _
    rw [← h1]
    decide

/-- C3 (counterexample): with the corpus `BuildCorpus` produces for the
word `"é"` (two bytes, one code point — stored in bucket 2), the word
`"ab"` is replaced by `"é"`: a non-empty replacement of code-point length
1 for a word of length 2, so length preservation fails. -/
theorem c3_counterexample :
    mangleWord asciiT [] corpusEacute "ab".toList = some "é".toList ∧
    ("é".toList : Str).length = 1 ∧ ("ab".toList : Str).length = 2 := by
  decide

/-- C3 (amended): if every word in bucket `k` has exactly `k` code points
(true of ASCII corpora, not of byte-bucketed multi-byte corpora), every
non-empty replacement has the code-point length of the input word. -/
theorem c3_length_preservation (u : UTables) (s : Str) (c : Corpus) (w : Str) (r : Str)
    (hwf : ∀ k wc, wc ∈ c k → wc.length = k)
    (hr : mangleWord u s c w = some r) (hne : r ≠ []) :
    r.length = w.length :=
  mangleWord_length u s c w hwf r hr hne

/-- C3 (witness): length preservation on the word `"abc"` over the
corpus with buckets `["z"]` and `["dd"]` (fallback from length 3 to 2,
one space of padding). -/
theorem c3_witness :
    (mangleWord asciiT [] corpusZD "abc".toList = some ("dd ".toList) ∧
      ("dd ".toList : Str) ≠ []) ∧
    ("dd ".toList : Str).length = ("abc".toList : Str).length := by
  have hwf : ∀ k wc, wc ∈ corpusZD k → wc.length = k := corpusZD_wf
  have hr : mangleWord asciiT [] corpusZD "abc".toList = some ("dd ".toList) := by decide
  exact ⟨⟨hr, by decide⟩,
    c3_length_preservation asciiT [] corpusZD "abc".toList "dd ".toList hwf hr (by decide)⟩

/-- C4 (counterexample): `BuildCorpus` buckets by Go `len` — UTF-8 bytes —
so the one-code-point word `"é"` lands in bucket 2, not bucket 1: fed the
words `"é", "a"`, bucket 1 holds only `"a"` and bucket 2 holds `"é"`. -/
theorem c4_counterexample :
    (buildCorpus ["é".toList, "a".toList]).map (fun p => (p.1 1, p.1 2, p.2))
      = some ([ "a".toList ], [ "é".toList ], none) ∧
    ("é".toList : Str).length = 1 := by
  decide

/-- C4 (amended): for every word source whose words are at most 254 bytes,
`BuildCorpus` succeeds and bucket `k` holds exactly the input words of `k`
UTF-8 **bytes**, in input order (words of 255 bytes or more panic). -/
theorem c4_bucket_by_bytes (ws : List Str) (hlen : ∀ w, w ∈ ws → byteLen w ≤ 254) :
    ∃ c err, buildCorpus ws = some (c, err) ∧
      ∀ k, c k = ws.filter (fun x => byteLen x == k) := by
  obtain ⟨c, err, h1, h2, _⟩ := buildCorpus_spec ws hlen
  exact ⟨c, err, h1, h2⟩

/-- C4 (witness): the bucket characterization applied to the two-word
source `"é", "a"`, evaluated at buckets 1 and 2. -/
theorem c4_witness :
    (∀ w, w ∈ (["é".toList, "a".toList] : List Str) → byteLen w ≤ 254) ∧
    ∃ c err, buildCorpus ["é".toList, "a".toList] = some (c, err) ∧
      ∀ k, c k = (["é".toList, "a".toList] : List Str).filter (fun x => byteLen x == k) :=
  ⟨by decide, c4_bucket_by_bytes ["é".toList, "a".toList] (by decide)⟩

/-- C5 (counterexample): a word of 255 code points makes `mangleWord` index
the `[255]` corpus array out of range — a panic (`none`), not an empty
string — even though the corpus has a fallback word of length 1. -/
theorem c5_counterexample :
    mangleWord asciiT [] corpusXY (List.replicate 255 'a') = none := by
  decide

/-- C5 (amended): for every word of fewer than 255 code points whose
checksum is not `2^32 - 1`, over any corpus whose buckets contain no empty
word, `mangleWord` returns a string; it is empty when the word is empty or
when no non-empty bucket exists at or below the word's length. -/
theorem c5_totality (u : UTables) (s : Str) (c : Corpus) (w : Str)
    (hlen : w.length < 255)
    (hne : ∀ k wc, wc ∈ c k → wc ≠ [])
    (hck : checksumOf w s ≠ 2 ^ 32 - 1) :
    ∃ r, mangleWord u s c w = some r ∧ (w = [] → r = []) ∧
      ((∀ K, K ≤ w.length → c K = []) → r = []) :=
  mangleWord_total u s c w hlen hne hck

/-- C5 (witness): totality applied to the word `"ab"` over the corpus
with buckets `["z"]` and `["dd"]`. -/
theorem c5_witness :
    ("ab".toList : Str).length < 255 ∧
    checksumOf "ab".toList [] ≠ 2 ^ 32 - 1 ∧
    ∃ r, mangleWord asciiT [] corpusZD "ab".toList = some r ∧
      ("ab".toList = ([] : Str) → r = []) ∧
      ((∀ K, K ≤ ("ab".toList : Str).length → corpusZD K = []) → r = []) := by
  have hne : ∀ k wc, wc ∈ corpusZD k → wc ≠ [] := corpusZD_ne
  exact ⟨by decide, by decide,
    c5_totality asciiT [] corpusZD "ab".toList (by decide) hne (by decide)⟩

/-- C6 (confirmed): driven by a reader that yields the text and then
end-of-input, the streaming entry point writes exactly the string the
whole-string entry point returns (and both panic together), so the two
modes are byte-identical — including the final word with no trailing
separator. -/
theorem c6_stream_equals_string (u : UTables) (s : Str) (c : Corpus) (input : List Char) :
    mangleIOText u s c input none
      = Option.map (fun out => (out, (none : Option GoError))) (mangleString u s c input) :=
  mangleIOAux_eq_stringAux u s c input []

/-- C7 (counterexample): a tokenizer error that is *not* end-of-input but
whose message is the string `"EOF"` is silently converted to success by
`MangleHTML`, instead of being returned to the caller. -/
theorem c7_counterexample :
    mangleHTML asciiT [] emptyCorpus [] (GoError.ioErr "EOF".toList) = some ([], none) ∧
    GoError.ioErr "EOF".toList ≠ GoError.eof := by
  decide

/-- C7 (amended): `MangleIO` propagates a mid-stream read error and treats
end-of-input as success; `MangleHTML` treats an error as end-of-input by
comparing its *message* with `"EOF"` — it returns `nil` exactly when the
message is `"EOF"` (even for a genuine failure with that message) and
propagates every other error. -/
theorem c7_error_propagation (u : UTables) (s : Str) (c : Corpus)
    (input input2 : List Char) (e : GoError) (toks : List Tok) (fin : GoError)
    (out out2 out3 : Str) (r r2 r3 : Option GoError)
    (h1 : mangleIOText u s c input (some e) = some (out, r))
    (h2 : mangleHTML u s c toks fin = some (out2, r2))
    (h3 : mangleIOText u s c input2 none = some (out3, r3)) :
    r = some e ∧ r3 = none ∧
      (r2 = none ↔ fin.message = "EOF".toList) ∧ (r2 ≠ none → r2 = some fin) := by
  refine ⟨mangleIOAux_err_result u s c e input [] out r h1, ?_, mangleHTML_err u s c toks fin out2 r2 h2⟩
  rw [mangleIOText, mangleIOAux_eq_stringAux u s c input2 []] at h3
  cases hms : mangleString u s c input2 with
  | none =>
    rw [mangleString] at hms
    rw [hms] at h3
    exact absurd h3 (by simp)
  | some o =>
    rw [mangleString] at hms
    rw [hms] at h3
    simp only [Option.map_some', Option.some.injEq, Prod.mk.injEq] at h3
    exact h3.2.symm

/-- C7 (witness): error propagation at a concrete failing stream, a
concrete normally-terminated HTML stream, and a concrete normally
terminated plain stream. -/
theorem c7_witness :
    mangleIOText asciiT [] emptyCorpus ", ".toList (some (GoError.ioErr "boom".toList))
      = some (", ".toList, some (GoError.ioErr "boom".toList)) ∧
    mangleHTML asciiT [] emptyCorpus [] GoError.eof = some ([], none) ∧
    mangleIOText asciiT [] emptyCorpus [] none = some ([], none) ∧
    some (GoError.ioErr "boom".toList) = some (GoError.ioErr "boom".toList) ∧
    ((none : Option GoError) = none ↔ GoError.eof.message = "EOF".toList) := by
  have h1 : mangleIOText asciiT [] emptyCorpus ", ".toList (some (GoError.ioErr "boom".toList))
      = some (", ".toList, some (GoError.ioErr "boom".toList)) := by decide
  have h2 : mangleHTML asciiT [] emptyCorpus [] GoError.eof = some ([], none) := by decide
  have h3 : mangleIOText asciiT [] emptyCorpus [] none = some ([], none) := by decide
  have hmain := c7_error_propagation asciiT [] emptyCorpus ", ".toList []
    (GoError.ioErr "boom".toList) [] GoError.eof
    ", ".toList [] [] (some (GoError.ioErr "boom".toList)) none none h1 h2 h3
  exact ⟨h1, h2, h3, by rw [hmain.1], hmain.2.2.1⟩

/-- C8 (confirmed): the HTML driver writes each text token as the
plain-text segmenter output on its text content and every other token as
its raw source bytes, concatenated in token order, handing the terminal
error through unchanged. -/
theorem c8_html_token_handling (u : UTables) (s : Str) (c : Corpus)
    (toks : List Tok) (fin : GoError) :
    mangleHTMLParser u s c toks fin
      = Option.map (fun out => (out, fin)) (htmlOutputSpec u s c toks) :=
  mangleHTMLParser_spec u s c toks fin

/-- C9 (counterexample): fed one 255-byte word (and no read error),
`BuildCorpus` panics on the `[255]` array — modelled by `none` — so it
neither returns an error nor a corpus, although the length-1 bucket of the
corpus built so far is empty. -/
theorem c9_counterexample :
    buildCorpus [List.replicate 255 'a'] = none := by
  rfl

/-- C9 (amended): on a word source with no read error whose words all fit
in 254 bytes, `BuildCorpus` returns, and returns an error exactly when the
length-1 bucket of the resulting corpus is empty. -/
theorem c9_error_iff (ws : List Str) (hlen : ∀ w, w ∈ ws → byteLen w ≤ 254) :
    ∃ c err, buildCorpus ws = some (c, err) ∧ (err.isSome ↔ c 1 = []) := by
  obtain ⟨c, err, h1, _, h3⟩ := buildCorpus_spec ws hlen
  exact ⟨c, err, h1, h3⟩

/-- C9 (witness): the error characterization applied to the one-word
source `"a"` (no error: bucket 1 non-empty). -/
theorem c9_witness :
    (∀ w, w ∈ (["a".toList] : List Str) → byteLen w ≤ 254) ∧
    ∃ c err, buildCorpus ["a".toList] = some (c, err) ∧ (err.isSome ↔ c 1 = []) :=
  ⟨by decide, c9_error_iff ["a".toList] (by decide)⟩

/-- C10 (confirmed): when the reader fails after yielding a prefix `p`
(ending in a separator, or empty) followed by a run `t` of word
characters, `MangleIO` returns the error and the bytes written are exactly
`MangleString p`: the in-progress word `t` is never written. -/
theorem c10_error_drops_partial_word (u : UTables) (s : Str) (c : Corpus)
    (e : GoError) (p t : List Char)
    (ht : ∀ ch, ch ∈ t → u.isWordChar ch = true)
    (hp : ∀ ch, p.getLast? = some ch → u.isWordChar ch = false) :
    mangleIOText u s c (p ++ t) (some e)
      = Option.map (fun out => (out, some e)) (mangleString u s c p) :=
  mangleIOAux_err_split u s c e t ht p [] hp (fun _ => rfl)

/-- C10 (witness): the drop-partial-word theorem at the stream
`"hi wo"` failing after `"wo"`, with prefix `"hi "`. -/
theorem c10_witness :
    (∀ ch, ch ∈ ("wo".toList : List Char) → asciiT.isWordChar ch = true) ∧
    mangleIOText asciiT [] corpusZD ("hi ".toList ++ "wo".toList) (some GoError.eof)
      = Option.map (fun out => (out, some GoError.eof))
          (mangleString asciiT [] corpusZD "hi ".toList) := by
  have hp : ∀ ch, ("hi ".toList : List Char).getLast? = some ch →
      asciiT.isWordChar ch = false := by
    intro ch h
    have hl : ("hi ".toList : List Char).getLast? = some ' ' := by decide
    rw [hl] at h
    injection h with h1
    rw [← h1]
    decide
  exact ⟨by decide,
    c10_error_drops_partial_word asciiT [] corpusZD GoError.eof "hi ".toList "wo".toList
      (by decide) hp⟩

end Mangle
